import Mathlib

set_option maxRecDepth 10000

/-!
Verification development for the F5-TTS-FastAPI service (src/main.py).

The core of the repository is the Spanish text normalizer used by `infer`:
lower-casing (`gen_text.lower()`) followed by `traducir_numero_a_texto`,
which inserts a space between any ASCII letter and an adjacent digit
(regexes `([A-Za-z])(\d)` and `(\d)([A-Za-z])`) and then replaces every
maximal digit run bounded by word boundaries (`\b\d+\b`) with its Spanish
cardinal spelling obtained from the external `num2words` library.

Strings are embedded as `List Char`.  Character classes follow the Python
`re` semantics restricted to the alphabet relevant to this service: ASCII
plus the Spanish accented letters.  Python `\w` (hence `\b`) counts the
underscore and all letters, including accented ones, as word characters,
while the separation regexes only match ASCII letters; this asymmetry is
preserved by the embedding.
-/

def isAsciiUpper (c : Char) : Bool := 65 ≤ c.toNat && c.toNat ≤ 90

def isAsciiLower (c : Char) : Bool := 97 ≤ c.toNat && c.toNat ≤ 122

def isAsciiLetter (c : Char) : Bool := isAsciiUpper c || isAsciiLower c

def isDigitChar (c : Char) : Bool := 48 ≤ c.toNat && c.toNat ≤ 57

def extLetters : List Char :=
  ['á', 'é', 'í', 'ó', 'ú', 'ü', 'ñ', 'Á', 'É', 'Í', 'Ó', 'Ú', 'Ü', 'Ñ']

def isExtLetter (c : Char) : Bool := extLetters.contains c

def isLetterChar (c : Char) : Bool := isAsciiLetter c || isExtLetter c

def isWordChar (c : Char) : Bool := isLetterChar c || isDigitChar c || c == '_'

/-- Lower-case table for `str.lower()` restricted to the model alphabet:
the 26 ASCII capitals plus the Spanish accented capitals. -/
def lowerPairs : List (Char × Char) :=
  [('A', 'a'), ('B', 'b'), ('C', 'c'), ('D', 'd'), ('E', 'e'), ('F', 'f'),
   ('G', 'g'), ('H', 'h'), ('I', 'i'), ('J', 'j'), ('K', 'k'), ('L', 'l'),
   ('M', 'm'), ('N', 'n'), ('O', 'o'), ('P', 'p'), ('Q', 'q'), ('R', 'r'),
   ('S', 's'), ('T', 't'), ('U', 'u'), ('V', 'v'), ('W', 'w'), ('X', 'x'),
   ('Y', 'y'), ('Z', 'z'),
   ('Á', 'á'), ('É', 'é'), ('Í', 'í'), ('Ó', 'ó'), ('Ú', 'ú'), ('Ü', 'ü'),
   ('Ñ', 'ñ')]

def lowerChar (c : Char) : Char :=
  match lowerPairs.find? (fun p => p.1 == c) with
  | some p => p.2
  | none => c

/-- Embedding of `gen_text.lower()` (src/main.py line 72). -/
def pyLower (l : List Char) : List Char := l.map lowerChar

/-- Embedding of `re.sub(r'([A-Za-z])(\d)', r'\1 \2', texto)`
(src/main.py line 57): a single space is inserted between every ASCII
letter that is immediately followed by a digit. -/
def sepLD : List Char → List Char
  | [] => []
  | [c] => [c]
  | a :: b :: rest =>
    if isAsciiLetter a && isDigitChar b then a :: ' ' :: sepLD (b :: rest)
    else a :: sepLD (b :: rest)

/-- Embedding of `re.sub(r'(\d)([A-Za-z])', r'\1 \2', texto_separado)`
(src/main.py line 58). -/
def sepDL : List Char → List Char
  | [] => []
  | [c] => [c]
  | a :: b :: rest =>
    if isDigitChar a && isAsciiLetter b then a :: ' ' :: sepDL (b :: rest)
    else a :: sepDL (b :: rest)

/-- Python `\b` before a digit run: true at the start of the string or when
the preceding character is not a word character. -/
def boundaryBefore : Option Char → Bool
  | none => true
  | some c => !isWordChar c

/-- Python `\b` after a digit run: true at the end of the string or when
the following character is not a word character. -/
def boundaryAfter : List Char → Bool
  | [] => true
  | c :: _ => !isWordChar c

/-- Embedding of `int(numero)` on a string of ASCII digits. -/
def digitsToNat (l : List Char) : Nat :=
  l.foldl (fun a c => 10 * a + (c.toNat - 48)) 0

/-- Spanish number words 0 to 29, as produced by `num2words(-, lang='es')`. -/
def unidades : List String :=
  ["cero", "uno", "dos", "tres", "cuatro", "cinco", "seis", "siete", "ocho",
   "nueve", "diez", "once", "doce", "trece", "catorce", "quince",
   "dieciséis", "diecisiete", "dieciocho", "diecinueve", "veinte",
   "veintiuno", "veintidós", "veintitrés", "veinticuatro", "veinticinco",
   "veintiséis", "veintisiete", "veintiocho", "veintinueve"]

def decenasList : List String :=
  ["", "", "", "treinta", "cuarenta", "cincuenta", "sesenta", "setenta",
   "ochenta", "noventa"]

def centenas : List String :=
  ["", "ciento", "doscientos", "trescientos", "cuatrocientos", "quinientos",
   "seiscientos", "setecientos", "ochocientos", "novecientos"]

def esBelow100 (n : Nat) : String :=
  if n < 30 then unidades.getD n ""
  else if n % 10 = 0 then decenasList.getD (n / 10) ""
  else decenasList.getD (n / 10) "" ++ " y " ++ unidades.getD (n % 10) ""

def esBelow1000 (n : Nat) : String :=
  if n / 100 = 0 then esBelow100 (n % 100)
  else if n % 100 = 0 then (if n / 100 = 1 then "cien" else centenas.getD (n / 100) "")
  else (if n / 100 = 1 then "ciento" else centenas.getD (n / 100) "") ++ " " ++
    esBelow100 (n % 100)

def esBelowMillion (n : Nat) : String :=
  if n / 1000 = 0 then esBelow1000 (n % 1000)
  else
    (if n / 1000 = 1 then "mil" else esBelow1000 (n / 1000) ++ " mil") ++
      (if n % 1000 = 0 then "" else " " ++ esBelow1000 (n % 1000))

/-- Spanish long-scale group names: the entry paired with `k` remaining
entries after it covers the factor `1000000 ^ (k + 1)`. -/
def scalesES : List (String × String) :=
  [("un decillón", "decillones"), ("un nonillón", "nonillones"),
   ("un octillón", "octillones"), ("un septillón", "septillones"),
   ("un sextillón", "sextillones"), ("un quintillón", "quintillones"),
   ("un cuatrillón", "cuatrillones"), ("un trillón", "trillones"),
   ("un billón", "billones"), ("un millón", "millones")]

def esWithScales : List (String × String) → Nat → String
  | [], n => esBelowMillion n
  | (sg, pl) :: rest, n =>
    if n / 1000000 ^ (rest.length + 1) = 0 then
      esWithScales rest (n % 1000000 ^ (rest.length + 1))
    else
      (if n / 1000000 ^ (rest.length + 1) = 1 then sg
        else esBelowMillion (n / 1000000 ^ (rest.length + 1)) ++ " " ++ pl) ++
        (if n % 1000000 ^ (rest.length + 1) = 0 then ""
          else " " ++ esWithScales rest (n % 1000000 ^ (rest.length + 1)))

def es_cardinal (n : Nat) : String := esWithScales scalesES n

/-- Modelled from the spec: the external `num2words` library (not part of
this repository) renders bounded non-negative integers and has a fatal
failure mode on digit runs outside its supported range; the spec leaves the
exact overflow threshold open (spec section 9), so the model fixes it at
`10 ^ 66`, one step past the largest long-scale group it spells.  `none`
models the raised `OverflowError`. -/
def MAXVAL_ES : Nat := 10 ^ 66

def num2words_es (n : Nat) : Option String :=
  if n < MAXVAL_ES then some (es_cardinal n) else none

/-- Fuel-indexed scanner for `re.sub(r'\b\d+\b', reemplazar_numero, texto_separado)`
(src/main.py lines 60 to 64).  At each position: a non-digit character is
emitted unchanged; a maximal digit run is replaced by its Spanish spelling
when both word boundaries hold, is emitted unchanged otherwise, and a
conversion failure aborts the whole call (the Python exception propagates).
The `prev` argument carries the character preceding the current position,
which is what the zero-width `\b` inspects. -/
def replaceRunsF : Nat → Option Char → List Char → Option (List Char)
  | _, _, [] => some []
  | 0, _, _ :: _ => none
  | fuel + 1, p, c :: rest =>
    if isDigitChar c then
      if boundaryBefore p && boundaryAfter (rest.dropWhile isDigitChar) then
        match num2words_es (digitsToNat (c :: rest.takeWhile isDigitChar)) with
        | some w =>
          (replaceRunsF fuel (some c) (rest.dropWhile isDigitChar)).map
            (fun r => w.data ++ r)
        | none => none
      else
        (replaceRunsF fuel (some c) (rest.dropWhile isDigitChar)).map
          (fun r => (c :: rest.takeWhile isDigitChar) ++ r)
    else (replaceRunsF fuel (some c) rest).map (fun r => c :: r)

def replaceRuns (p : Option Char) (l : List Char) : Option (List Char) :=
  replaceRunsF l.length p l

/-- Embedding of `traducir_numero_a_texto` (src/main.py lines 56 to 64). -/
def traducir_numero_a_texto (texto : List Char) : Option (List Char) :=
  replaceRuns none (sepDL (sepLD texto))

/-- The normalizer applied to `gen_text` inside `infer`
(src/main.py lines 72 to 73): lower-casing then `traducir_numero_a_texto`. -/
def normalizeText (l : List Char) : Option (List Char) :=
  traducir_numero_a_texto (pyLower l)

def noDigits (l : List Char) : Bool := l.all (fun c => !isDigitChar c)

def adjOK (a b : Char) : Bool :=
  !(isAsciiLetter a && isDigitChar b) && !(isDigitChar a && isAsciiLetter b)

/-- No digit is adjacent to an ASCII letter anywhere in the list. -/
def noBadAdj : List Char → Bool
  | a :: b :: rest => adjOK a b && noBadAdj (b :: rest)
  | _ => true

/-- No ASCII letter is immediately followed by a digit. -/
def noLDAdj : List Char → Bool
  | a :: b :: rest => !(isAsciiLetter a && isDigitChar b) && noLDAdj (b :: rest)
  | _ => true

/-- No digit is immediately followed by an ASCII letter. -/
def noDLAdj : List Char → Bool
  | a :: b :: rest => !(isDigitChar a && isAsciiLetter b) && noDLAdj (b :: rest)
  | _ => true

/-- Characters that can occur in a Spanish cardinal spelling. -/
def spellChars : List Char := "abcdefghijklmnopqrstuvwxyzáéíóúüñ ".data

/-- A string drawn entirely from the spelling alphabet. -/
def spellStr (s : String) : Bool := s.data.all (fun c => spellChars.contains c)

/-- The character preceding the current scan position after walking `w`. -/
def endPrev (q : Option Char) : List Char → Option Char
  | [] => q
  | c :: rest => endPrev (some c) rest

/-! Embedding of the `POST /generate-audio/` endpoint
(src/main.py lines 98 to 148).  The body of the `try` block validates the
upload filename and the two text fields, raising `HTTPException(400, ...)`
on failure, then runs `infer` (whose text preprocessing is `normalizeText` and
whose model call is an external collaborator, abstracted as the `ext`
argument).  The `except Exception` clause catches every exception raised in
the block, including the 400 `HTTPException`s, and re-raises
`HTTPException(500, ...)`. -/

inductive PyExc where
  | http : Nat → String → PyExc
  | err : String → PyExc
deriving DecidableEq

structure ReqData where
  filename : List Char
  ref_text : List Char
  gen_text : List Char

inductive Outcome where
  | response : Outcome
  | httpError : Nat → String → Outcome
deriving DecidableEq

/-- Embedding of `ref_audio.filename.endswith(".wav")` (line 113). -/
def wavOk (f : List Char) : Bool := ".wav".data.isSuffixOf f

def excText : PyExc → String
  | .http n d => toString n ++ ": " ++ d
  | .err m => m

/-- The `try` block of `generate_audio` (lines 111 to 144), before the
catch-all handler is applied. -/
def generate_audio_try (r : ReqData) (ext : Except String Unit) :
    Except PyExc Unit :=
  if !wavOk r.filename then
    .error (.http 400 "El archivo de audio debe estar en formato WAV.")
  else if r.ref_text.isEmpty || r.gen_text.isEmpty then
    .error (.http 400 "Ambos textos (de referencia y generación) son obligatorios.")
  else
    match normalizeText r.gen_text with
    | none => .error (.err "OverflowError in num2words")
    | some _ =>
      match ext with
      | .error m => .error (.err m)
      | .ok _ => .ok ()

/-- The whole endpoint: the catch-all `except Exception` (lines 146 to 148)
maps every exception from the `try` block to `HTTPException(500, ...)`. -/
def generate_audio (r : ReqData) (ext : Except String Unit) : Outcome :=
  match generate_audio_try r ext with
  | .ok _ => .response
  | .error e => .httpError 500 ("Error al generar el audio: " ++ excText e)


/-! Basic facts about the character classes. -/

theorem digit_not_asciiLetter {c : Char} (h : isDigitChar c = true) :
    isAsciiLetter c = false := by
  simp only [isDigitChar, Bool.and_eq_true, decide_eq_true_eq] at h
  simp only [isAsciiLetter, isAsciiUpper, isAsciiLower, Bool.or_eq_false_iff,
    Bool.and_eq_false_iff, decide_eq_false_iff_not]
  omega

theorem digit_not_extLetter {c : Char} (h : isDigitChar c = true) :
    isExtLetter c = false := by
  cases he : isExtLetter c with
  | false => rfl
  | true =>
    have hmem : c ∈ extLetters := by
      have := he
      unfold isExtLetter at this
      simpa using this
    simp only [extLetters, List.mem_cons, List.not_mem_nil, or_false] at hmem
    rcases hmem with rfl|rfl|rfl|rfl|rfl|rfl|rfl|rfl|rfl|rfl|rfl|rfl|rfl|rfl <;>
      exact absurd h (by decide)

theorem digit_not_underscore {c : Char} (h : isDigitChar c = true) :
    (c == '_') = false := by
  cases hu : c == '_' with
  | false => rfl
  | true =>
    have : c = '_' := eq_of_beq hu
    subst this
    exact absurd h (by decide)

theorem digit_isWordChar {c : Char} (h : isDigitChar c = true) :
    isWordChar c = true := by
  simp [isWordChar, isLetterChar, h]

theorem wordChar_cases {c : Char} (h : isWordChar c = true) :
    isAsciiLetter c = true ∨ isExtLetter c = true ∨ isDigitChar c = true ∨ c = '_' := by
  simp only [isWordChar, isLetterChar, Bool.or_eq_true, beq_iff_eq] at h
  tauto

theorem not_wordChar_not_digit {c : Char} (h : isWordChar c = false) :
    isDigitChar c = false := by
  cases hd : isDigitChar c with
  | false => rfl
  | true => rw [digit_isWordChar hd] at h; exact absurd h (by decide)

theorem not_wordChar_not_asciiLetter {c : Char} (h : isWordChar c = false) :
    isAsciiLetter c = false := by
  cases hd : isAsciiLetter c with
  | false => rfl
  | true =>
    have : isWordChar c = true := by simp [isWordChar, isLetterChar, hd]
    rw [this] at h; exact absurd h (by decide)

/-! Facts about the lower-casing table. -/

theorem lowerChar_spec (c : Char) :
    lowerChar c = c ∨ (c, lowerChar c) ∈ lowerPairs := by
  unfold lowerChar
  cases hf : lowerPairs.find? (fun p => p.1 == c) with
  | none => exact Or.inl rfl
  | some q =>
    right
    have hmem := List.mem_of_find?_eq_some hf
    have hp := List.find?_some hf
    have h1 : q.1 = c := by simpa using hp
    have : (c, q.2) = q := by rw [← h1]
    rw [this]
    exact hmem

theorem lowerPairs_word : ∀ p ∈ lowerPairs, isWordChar p.1 = true ∧ isWordChar p.2 = true := by
  decide

theorem lowerPairs_nodigit : ∀ p ∈ lowerPairs, isDigitChar p.1 = false ∧ isDigitChar p.2 = false := by
  decide

theorem lowerPairs_asciiLetter : ∀ p ∈ lowerPairs, isAsciiLetter p.1 = isAsciiLetter p.2 := by
  decide

theorem lowerPairs_snd_fix : ∀ p ∈ lowerPairs, lowerPairs.find? (fun q => q.1 == p.2) = none := by
  decide

theorem lowerChar_fix_of_pair {p : Char × Char} (hp : p ∈ lowerPairs) :
    lowerChar p.2 = p.2 := by
  unfold lowerChar
  rw [lowerPairs_snd_fix p hp]

theorem lowerChar_idem (c : Char) : lowerChar (lowerChar c) = lowerChar c := by
  rcases lowerChar_spec c with h | h
  · rw [h, h]
  · exact lowerChar_fix_of_pair h

theorem lowerChar_digit (c : Char) : isDigitChar (lowerChar c) = isDigitChar c := by
  rcases lowerChar_spec c with h | h
  · rw [h]
  · have h1 := (lowerPairs_nodigit _ h).1
    have h2 := (lowerPairs_nodigit _ h).2
    simp only at h1 h2
    rw [h1, h2]

theorem lowerChar_restrict (c : Char)
    (h : isWordChar c = true → isAsciiLetter c = true ∨ isDigitChar c = true) :
    isWordChar (lowerChar c) = true →
      isAsciiLetter (lowerChar c) = true ∨ isDigitChar (lowerChar c) = true := by
  intro hw
  rcases lowerChar_spec c with he | he
  · rw [he] at hw ⊢; exact h hw
  · have hwp := (lowerPairs_word _ he).1
    have hnd := (lowerPairs_nodigit _ he).1
    have hll := lowerPairs_asciiLetter _ he
    simp only at hwp hnd hll
    rcases h hwp with hl | hd
    · left; rw [← hll]; exact hl
    · rw [hd] at hnd; exact absurd hnd (by decide)

/-! Small list facts used by the scanner proofs. -/

theorem dropWhile_length_le (p : Char → Bool) :
    ∀ l : List Char, (l.dropWhile p).length ≤ l.length := by
  intro l
  induction l with
  | nil => simp
  | cons a l ih =>
    rw [List.dropWhile_cons]
    split
    · exact Nat.le_trans ih (Nat.le_succ _)
    · simp

theorem mem_of_mem_dropWhile (p : Char → Bool) :
    ∀ (l : List Char) (c : Char), c ∈ l.dropWhile p → c ∈ l := by
  intro l
  induction l with
  | nil => simp
  | cons a l ih =>
    intro c h
    rw [List.dropWhile_cons] at h
    split at h
    · exact List.mem_cons_of_mem a (ih c h)
    · exact h

theorem mem_takeWhile_split (p : Char → Bool) :
    ∀ (l : List Char) (c : Char), c ∈ l.takeWhile p → p c = true ∧ c ∈ l := by
  intro l
  induction l with
  | nil => simp
  | cons a l ih =>
    intro c h
    rw [List.takeWhile_cons] at h
    split at h
    · rcases List.mem_cons.mp h with rfl | h
      · exact ⟨by assumption, List.mem_cons_self _ _⟩
      · rcases ih c h with ⟨h1, h2⟩
        exact ⟨h1, List.mem_cons_of_mem a h2⟩
    · exact absurd h (List.not_mem_nil c)

theorem dropWhile_head_false (p : Char → Bool) :
    ∀ (l : List Char) (h : Char) (t : List Char),
      l.dropWhile p = h :: t → p h = false := by
  intro l
  induction l with
  | nil => intro h t hh; exact absurd hh (by simp)
  | cons a l ih =>
    intro h t hh
    rw [List.dropWhile_cons] at hh
    split at hh
    · exact ih h t hh
    · rename_i hcond
      cases hh
      cases hpa : p a with
      | false => rfl
      | true => exact absurd hpa hcond

/-! Facts about the adjacency predicate `noBadAdj`. -/

theorem noBadAdj_nil : noBadAdj [] = true := rfl

theorem noBadAdj_single (a : Char) : noBadAdj [a] = true := rfl

theorem noBadAdj_cons_cons (a b : Char) (t : List Char) :
    noBadAdj (a :: b :: t) = (adjOK a b && noBadAdj (b :: t)) := rfl

theorem noBadAdj_tail {a : Char} {l : List Char} (h : noBadAdj (a :: l) = true) :
    noBadAdj l = true := by
  cases l with
  | nil => rfl
  | cons b t =>
    rw [noBadAdj_cons_cons, Bool.and_eq_true] at h
    exact h.2

theorem noBadAdj_pair {a b : Char} {t : List Char}
    (h : noBadAdj (a :: b :: t) = true) : adjOK a b = true := by
  rw [noBadAdj_cons_cons, Bool.and_eq_true] at h
  exact h.1

theorem noBadAdj_append_right :
    ∀ a b : List Char, noBadAdj (a ++ b) = true → noBadAdj b = true := by
  intro a
  induction a with
  | nil => intro b h; exact h
  | cons x a ih =>
    intro b h
    exact ih b (noBadAdj_tail h)

theorem noBadAdj_append :
    ∀ a b : List Char, noBadAdj a = true → noBadAdj b = true →
      (∀ x y, a.getLast? = some x → b.head? = some y → adjOK x y = true) →
      noBadAdj (a ++ b) = true := by
  intro a
  induction a with
  | nil => intro b _ hb _; exact hb
  | cons x a ih =>
    intro b ha hb hab
    cases a with
    | nil =>
      cases b with
      | nil => rfl
      | cons y b =>
        rw [List.singleton_append, noBadAdj_cons_cons, Bool.and_eq_true]
        exact ⟨hab x y rfl rfl, hb⟩
    | cons x' a' =>
      rw [List.cons_append, List.cons_append, noBadAdj_cons_cons,
        Bool.and_eq_true]
      constructor
      · exact noBadAdj_pair ha
      · rw [← List.cons_append]
        refine ih b (noBadAdj_tail ha) hb ?_
        intro u v hu hv
        refine hab u v ?_ hv
        rw [List.getLast?_cons_cons]
        exact hu

theorem noBadAdj_of_noDigits :
    ∀ l : List Char, (∀ c ∈ l, isDigitChar c = false) → noBadAdj l = true := by
  intro l
  induction l with
  | nil => intro _; rfl
  | cons a l ih =>
    intro h
    cases l with
    | nil => rfl
    | cons b t =>
      rw [noBadAdj_cons_cons, Bool.and_eq_true]
      constructor
      · have ha := h a (List.mem_cons_self _ _)
        have hb := h b (List.mem_cons_of_mem _ (List.mem_cons_self _ _))
        simp [adjOK, ha, hb]
      · exact ih fun c hc => h c (List.mem_cons_of_mem _ hc)

theorem adjOK_digits {a b : Char} (ha : isDigitChar a = true)
    (hb : isDigitChar b = true) : adjOK a b = true := by
  simp [adjOK, digit_not_asciiLetter ha, digit_not_asciiLetter hb]

theorem noBadAdj_of_digits :
    ∀ l : List Char, (∀ c ∈ l, isDigitChar c = true) → noBadAdj l = true := by
  intro l
  induction l with
  | nil => intro _; rfl
  | cons a l ih =>
    intro h
    cases l with
    | nil => rfl
    | cons b t =>
      rw [noBadAdj_cons_cons, Bool.and_eq_true]
      refine ⟨adjOK_digits (h a (List.mem_cons_self _ _))
        (h b (List.mem_cons_of_mem _ (List.mem_cons_self _ _))), ?_⟩
      exact ih fun c hc => h c (List.mem_cons_of_mem _ hc)

/-! The scanner `replaceRunsF` does not depend on its fuel when the fuel is
at least the length of the list, which lets us reason about the total
wrapper `replaceRuns` through clean unfolding equations. -/

theorem replaceRunsF_fuel :
    ∀ f g : Nat, ∀ (p : Option Char) (l : List Char),
      l.length ≤ f → l.length ≤ g → replaceRunsF f p l = replaceRunsF g p l := by
  intro f
  induction f with
  | zero =>
    intro g p l hf _
    have hl : l = [] := List.length_eq_zero.mp (Nat.le_zero.mp hf)
    subst hl
    cases g <;> rfl
  | succ f ih =>
    intro g p l hf hg
    cases l with
    | nil => cases g <;> rfl
    | cons c rest =>
      cases g with
      | zero => simp at hg
      | succ g =>
        have hf' : rest.length ≤ f := by simpa using hf
        have hg' : rest.length ≤ g := by simpa using hg
        have hd : (rest.dropWhile isDigitChar).length ≤ rest.length :=
          dropWhile_length_le _ _
        show replaceRunsF (f + 1) p (c :: rest) = replaceRunsF (g + 1) p (c :: rest)
        simp only [replaceRunsF]
        rw [ih g (some c) (rest.dropWhile isDigitChar)
          (Nat.le_trans hd hf') (Nat.le_trans hd hg'),
          ih g (some c) rest hf' hg']

theorem replaceRuns_nil (p : Option Char) : replaceRuns p [] = some [] := rfl

theorem replaceRuns_cons (p : Option Char) (c : Char) (rest : List Char) :
    replaceRuns p (c :: rest) =
      if isDigitChar c then
        if boundaryBefore p && boundaryAfter (rest.dropWhile isDigitChar) then
          match num2words_es (digitsToNat (c :: rest.takeWhile isDigitChar)) with
          | some w =>
            (replaceRuns (some c) (rest.dropWhile isDigitChar)).map
              (fun r => w.data ++ r)
          | none => none
        else
          (replaceRuns (some c) (rest.dropWhile isDigitChar)).map
            (fun r => (c :: rest.takeWhile isDigitChar) ++ r)
      else (replaceRuns (some c) rest).map (fun r => c :: r) := by
  show replaceRunsF (rest.length + 1) p (c :: rest) = _
  simp only [replaceRunsF]
  unfold replaceRuns
  rw [replaceRunsF_fuel rest.length (rest.dropWhile isDigitChar).length (some c)
    (rest.dropWhile isDigitChar) (dropWhile_length_le _ _) (Nat.le_refl _)]

theorem replaceRuns_cons_nondigit {c : Char} (p : Option Char) (rest : List Char)
    (h : isDigitChar c = false) :
    replaceRuns p (c :: rest) = (replaceRuns (some c) rest).map (fun r => c :: r) := by
  rw [replaceRuns_cons, h]
  simp

theorem replaceRuns_cons_digit_hit {c : Char} (p : Option Char) (rest : List Char)
    (h : isDigitChar c = true) (hb : boundaryBefore p = true)
    (ha : boundaryAfter (rest.dropWhile isDigitChar) = true) :
    replaceRuns p (c :: rest) =
      match num2words_es (digitsToNat (c :: rest.takeWhile isDigitChar)) with
      | some w =>
        (replaceRuns (some c) (rest.dropWhile isDigitChar)).map
          (fun r => w.data ++ r)
      | none => none := by
  rw [replaceRuns_cons, h, hb, ha]
  simp

theorem replaceRuns_cons_digit_miss {c : Char} (p : Option Char) (rest : List Char)
    (h : isDigitChar c = true)
    (hb : (boundaryBefore p && boundaryAfter (rest.dropWhile isDigitChar)) = false) :
    replaceRuns p (c :: rest) =
      (replaceRuns (some c) (rest.dropWhile isDigitChar)).map
        (fun r => (c :: rest.takeWhile isDigitChar) ++ r) := by
  rw [replaceRuns_cons, h, hb]
  simp

/-! Properties of the two space-insertion passes. -/

theorem sepLD_headq : ∀ l : List Char, (sepLD l).head? = l.head? := by
  intro l
  match l with
  | [] => rfl
  | [c] => rfl
  | a :: b :: rest =>
    rw [sepLD]
    split <;> rfl

theorem sepDL_headq : ∀ l : List Char, (sepDL l).head? = l.head? := by
  intro l
  match l with
  | [] => rfl
  | [c] => rfl
  | a :: b :: rest =>
    rw [sepDL]
    split <;> rfl

theorem noLDAdj_cons (a : Char) (l : List Char) (h : noLDAdj l = true)
    (hp : ∀ b t, l = b :: t → (isAsciiLetter a && isDigitChar b) = false) :
    noLDAdj (a :: l) = true := by
  cases l with
  | nil => rfl
  | cons b t =>
    show (!(isAsciiLetter a && isDigitChar b) && noLDAdj (b :: t)) = true
    rw [hp b t rfl, h]
    rfl

theorem noDLAdj_cons (a : Char) (l : List Char) (h : noDLAdj l = true)
    (hp : ∀ b t, l = b :: t → (isDigitChar a && isAsciiLetter b) = false) :
    noDLAdj (a :: l) = true := by
  cases l with
  | nil => rfl
  | cons b t =>
    show (!(isDigitChar a && isAsciiLetter b) && noDLAdj (b :: t)) = true
    rw [hp b t rfl, h]
    rfl

theorem noLDAdj_tail {a : Char} {l : List Char} (h : noLDAdj (a :: l) = true) :
    noLDAdj l = true := by
  cases l with
  | nil => rfl
  | cons b t =>
    have : (!(isAsciiLetter a && isDigitChar b) && noLDAdj (b :: t)) = true := h
    exact (Bool.and_eq_true _ _ |>.mp this).2

theorem noDLAdj_tail {a : Char} {l : List Char} (h : noDLAdj (a :: l) = true) :
    noDLAdj l = true := by
  cases l with
  | nil => rfl
  | cons b t =>
    have : (!(isDigitChar a && isAsciiLetter b) && noDLAdj (b :: t)) = true := h
    exact (Bool.and_eq_true _ _ |>.mp this).2

theorem noLDAdj_pair {a b : Char} {t : List Char}
    (h : noLDAdj (a :: b :: t) = true) : (isAsciiLetter a && isDigitChar b) = false := by
  have : (!(isAsciiLetter a && isDigitChar b) && noLDAdj (b :: t)) = true := h
  have h1 := (Bool.and_eq_true _ _ |>.mp this).1
  rwa [Bool.not_eq_true'] at h1

theorem noDLAdj_pair {a b : Char} {t : List Char}
    (h : noDLAdj (a :: b :: t) = true) : (isDigitChar a && isAsciiLetter b) = false := by
  have : (!(isDigitChar a && isAsciiLetter b) && noDLAdj (b :: t)) = true := h
  have h1 := (Bool.and_eq_true _ _ |>.mp this).1
  rwa [Bool.not_eq_true'] at h1

theorem sepLD_noLD : ∀ l : List Char, noLDAdj (sepLD l) = true := by
  intro l
  induction l with
  | nil => rfl
  | cons a rest ih =>
    cases rest with
    | nil => rfl
    | cons b rest' =>
      rw [sepLD]
      split
      · rename_i hg
        refine noLDAdj_cons a _ ?_ ?_
        · refine noLDAdj_cons ' ' _ ih ?_
          intro x t hx
          simp [isAsciiLetter, isAsciiUpper, isAsciiLower]
        · intro x t hx
          cases hx
          simp [isDigitChar]
      · rename_i hg
        refine noLDAdj_cons a _ ih ?_
        intro x t hx
        have hb : (sepLD (b :: rest')).head? = some b := by
          rw [sepLD_headq]; rfl
        rw [hx] at hb
        simp only [List.head?_cons, Option.some.injEq] at hb
        subst hb
        simpa using hg

theorem sepDL_noDL : ∀ l : List Char, noDLAdj (sepDL l) = true := by
  intro l
  induction l with
  | nil => rfl
  | cons a rest ih =>
    cases rest with
    | nil => rfl
    | cons b rest' =>
      rw [sepDL]
      split
      · rename_i hg
        refine noDLAdj_cons a _ ?_ ?_
        · refine noDLAdj_cons ' ' _ ih ?_
          intro x t hx
          simp [isDigitChar]
        · intro x t hx
          cases hx
          simp [isAsciiLetter, isAsciiUpper, isAsciiLower]
      · rename_i hg
        refine noDLAdj_cons a _ ih ?_
        intro x t hx
        have hb : (sepDL (b :: rest')).head? = some b := by
          rw [sepDL_headq]; rfl
        rw [hx] at hb
        simp only [List.head?_cons, Option.some.injEq] at hb
        subst hb
        simpa using hg

theorem sepDL_pres_noLD : ∀ l : List Char, noLDAdj l = true → noLDAdj (sepDL l) = true := by
  intro l
  induction l with
  | nil => intro _; rfl
  | cons a rest ih =>
    intro h
    cases rest with
    | nil => rfl
    | cons b rest' =>
      rw [sepDL]
      split
      · refine noLDAdj_cons a _ ?_ ?_
        · refine noLDAdj_cons ' ' _ (ih (noLDAdj_tail h)) ?_
          intro x t hx
          simp [isAsciiLetter, isAsciiUpper, isAsciiLower]
        · intro x t hx
          cases hx
          simp [isDigitChar]
      · refine noLDAdj_cons a _ (ih (noLDAdj_tail h)) ?_
        intro x t hx
        have hb : (sepDL (b :: rest')).head? = some b := by
          rw [sepDL_headq]; rfl
        rw [hx] at hb
        simp only [List.head?_cons, Option.some.injEq] at hb
        subst hb
        exact noLDAdj_pair h

theorem noBadAdj_of_both : ∀ l : List Char,
    noLDAdj l = true → noDLAdj l = true → noBadAdj l = true := by
  intro l
  induction l with
  | nil => intro _ _; rfl
  | cons a rest ih =>
    intro h1 h2
    cases rest with
    | nil => rfl
    | cons b t =>
      rw [noBadAdj_cons_cons, Bool.and_eq_true]
      constructor
      · simp [adjOK, noLDAdj_pair h1, noDLAdj_pair h2]
      · exact ih (noLDAdj_tail h1) (noDLAdj_tail h2)

theorem noBadAdj_noLD : ∀ l : List Char, noBadAdj l = true → noLDAdj l = true := by
  intro l
  induction l with
  | nil => intro _; rfl
  | cons a rest ih =>
    intro h
    cases rest with
    | nil => rfl
    | cons b t =>
      have hp := noBadAdj_pair h
      simp only [adjOK, Bool.and_eq_true, Bool.not_eq_true'] at hp
      show (!(isAsciiLetter a && isDigitChar b) && noLDAdj (b :: t)) = true
      rw [hp.1, ih (noBadAdj_tail h)]
      rfl

theorem noBadAdj_noDL : ∀ l : List Char, noBadAdj l = true → noDLAdj l = true := by
  intro l
  induction l with
  | nil => intro _; rfl
  | cons a rest ih =>
    intro h
    cases rest with
    | nil => rfl
    | cons b t =>
      have hp := noBadAdj_pair h
      simp only [adjOK, Bool.and_eq_true, Bool.not_eq_true'] at hp
      show (!(isDigitChar a && isAsciiLetter b) && noDLAdj (b :: t)) = true
      rw [hp.2, ih (noBadAdj_tail h)]
      rfl

/-- The two passes together leave no digit adjacent to an ASCII letter; this
is the postcondition the spec ascribes to the boundary-insertion step. -/
theorem sep_noBadAdj (l : List Char) : noBadAdj (sepDL (sepLD l)) = true :=
  noBadAdj_of_both _ (sepDL_pres_noLD _ (sepLD_noLD l)) (sepDL_noDL _)

theorem sepLD_id : ∀ l : List Char, noLDAdj l = true → sepLD l = l := by
  intro l
  induction l with
  | nil => intro _; rfl
  | cons a rest ih =>
    intro h
    cases rest with
    | nil => rfl
    | cons b t =>
      rw [sepLD, if_neg]
      · rw [ih (noLDAdj_tail h)]
      · rw [noLDAdj_pair h]
        simp

theorem sepDL_id : ∀ l : List Char, noDLAdj l = true → sepDL l = l := by
  intro l
  induction l with
  | nil => intro _; rfl
  | cons a rest ih =>
    intro h
    cases rest with
    | nil => rfl
    | cons b t =>
      rw [sepDL, if_neg]
      · rw [ih (noDLAdj_tail h)]
      · rw [noDLAdj_pair h]
        simp

theorem mem_sepLD : ∀ (l : List Char) (c : Char), c ∈ sepLD l → c ∈ l ∨ c = ' ' := by
  intro l
  induction l with
  | nil => intro c h; exact absurd h (by simp [sepLD])
  | cons a rest ih =>
    intro c h
    cases rest with
    | nil =>
      rcases List.mem_singleton.mp h with rfl
      exact Or.inl (List.mem_singleton.mpr rfl)
    | cons b t =>
      rw [sepLD] at h
      split at h
      · rcases List.mem_cons.mp h with rfl | h
        · exact Or.inl (List.mem_cons_self _ _)
        · rcases List.mem_cons.mp h with rfl | h
          · exact Or.inr rfl
          · rcases ih c h with hc | hc
            · exact Or.inl (List.mem_cons_of_mem _ hc)
            · exact Or.inr hc
      · rcases List.mem_cons.mp h with rfl | h
        · exact Or.inl (List.mem_cons_self _ _)
        · rcases ih c h with hc | hc
          · exact Or.inl (List.mem_cons_of_mem _ hc)
          · exact Or.inr hc

theorem mem_sepDL : ∀ (l : List Char) (c : Char), c ∈ sepDL l → c ∈ l ∨ c = ' ' := by
  intro l
  induction l with
  | nil => intro c h; exact absurd h (by simp [sepDL])
  | cons a rest ih =>
    intro c h
    cases rest with
    | nil =>
      rcases List.mem_singleton.mp h with rfl
      exact Or.inl (List.mem_singleton.mpr rfl)
    | cons b t =>
      rw [sepDL] at h
      split at h
      · rcases List.mem_cons.mp h with rfl | h
        · exact Or.inl (List.mem_cons_self _ _)
        · rcases List.mem_cons.mp h with rfl | h
          · exact Or.inr rfl
          · rcases ih c h with hc | hc
            · exact Or.inl (List.mem_cons_of_mem _ hc)
            · exact Or.inr hc
      · rcases List.mem_cons.mp h with rfl | h
        · exact Or.inl (List.mem_cons_self _ _)
        · rcases ih c h with hc | hc
          · exact Or.inl (List.mem_cons_of_mem _ hc)
          · exact Or.inr hc

theorem noLDAdj_of_nodigits (l : List Char) (h : ∀ c ∈ l, isDigitChar c = false) :
    noLDAdj l = true := by
  induction l with
  | nil => rfl
  | cons a rest ih =>
    cases rest with
    | nil => rfl
    | cons b t =>
      show (!(isAsciiLetter a && isDigitChar b) && noLDAdj (b :: t)) = true
      rw [h b (List.mem_cons_of_mem _ (List.mem_cons_self _ _))]
      rw [ih fun c hc => h c (List.mem_cons_of_mem _ hc)]
      simp

theorem noDLAdj_of_nodigits (l : List Char) (h : ∀ c ∈ l, isDigitChar c = false) :
    noDLAdj l = true := by
  induction l with
  | nil => rfl
  | cons a rest ih =>
    cases rest with
    | nil => rfl
    | cons b t =>
      show (!(isDigitChar a && isAsciiLetter b) && noDLAdj (b :: t)) = true
      rw [h a (List.mem_cons_self _ _)]
      rw [ih fun c hc => h c (List.mem_cons_of_mem _ hc)]
      simp

theorem noLDAdj_of_digits (l : List Char) (h : ∀ c ∈ l, isDigitChar c = true) :
    noLDAdj l = true := by
  induction l with
  | nil => rfl
  | cons a rest ih =>
    cases rest with
    | nil => rfl
    | cons b t =>
      show (!(isAsciiLetter a && isDigitChar b) && noLDAdj (b :: t)) = true
      rw [digit_not_asciiLetter (h a (List.mem_cons_self _ _))]
      rw [ih fun c hc => h c (List.mem_cons_of_mem _ hc)]
      simp

theorem noDLAdj_of_digits (l : List Char) (h : ∀ c ∈ l, isDigitChar c = true) :
    noDLAdj l = true := by
  induction l with
  | nil => rfl
  | cons a rest ih =>
    cases rest with
    | nil => rfl
    | cons b t =>
      show (!(isDigitChar a && isAsciiLetter b) && noDLAdj (b :: t)) = true
      rw [digit_not_asciiLetter (h b (List.mem_cons_of_mem _ (List.mem_cons_self _ _)))]
      rw [ih fun c hc => h c (List.mem_cons_of_mem _ hc)]
      simp

/-! The Spanish spelling produced by the modelled `num2words` draws all of
its characters from `spellChars` and is nonempty on the supported range. -/

theorem getD_mem_or (l : List String) (n : Nat) (d : String) :
    l.getD n d ∈ l ∨ l.getD n d = d := by
  induction l generalizing n with
  | nil => right; cases n <;> rfl
  | cons a t ih =>
    cases n with
    | zero => left; exact List.mem_cons_self _ _
    | succ n =>
      rw [List.getD_cons_succ]
      rcases ih n with h | h
      · exact Or.inl (List.mem_cons_of_mem _ h)
      · exact Or.inr h

theorem spellStr_empty : spellStr "" = true := rfl

theorem spellStr_append (a b : String) :
    spellStr (a ++ b) = (spellStr a && spellStr b) := by
  unfold spellStr
  rw [String.data_append a b, List.all_append]

theorem spellStr_getD (l : List String) (n : Nat)
    (h : l.all spellStr = true) : spellStr (l.getD n "") = true := by
  rcases getD_mem_or l n "" with hm | he
  · exact List.all_eq_true.mp h _ hm
  · rw [he]; rfl

theorem unidades_spell : unidades.all spellStr = true := by decide

theorem decenas_spell : decenasList.all spellStr = true := by decide

theorem centenas_spell : centenas.all spellStr = true := by decide

theorem esBelow100_spell (n : Nat) : spellStr (esBelow100 n) = true := by
  unfold esBelow100
  split
  · exact spellStr_getD _ _ unidades_spell
  · split
    · exact spellStr_getD _ _ decenas_spell
    · rw [spellStr_append, spellStr_append]
      rw [spellStr_getD _ _ decenas_spell, spellStr_getD _ _ unidades_spell]
      rfl

theorem esBelow1000_spell (n : Nat) : spellStr (esBelow1000 n) = true := by
  unfold esBelow1000
  split
  · exact esBelow100_spell _
  · split
    · split
      · decide
      · exact spellStr_getD _ _ centenas_spell
    · rw [spellStr_append, spellStr_append]
      have h1 : spellStr (if n / 100 = 1 then "ciento" else centenas.getD (n / 100) "") = true := by
        split
        · decide
        · exact spellStr_getD _ _ centenas_spell
      rw [h1, esBelow100_spell]
      rfl

theorem esBelowMillion_spell (n : Nat) : spellStr (esBelowMillion n) = true := by
  unfold esBelowMillion
  split
  · exact esBelow1000_spell _
  · rw [spellStr_append]
    have h1 : spellStr (if n / 1000 = 1 then "mil" else esBelow1000 (n / 1000) ++ " mil") = true := by
      split
      · decide
      · rw [spellStr_append, esBelow1000_spell]; rfl
    have h2 : spellStr (if n % 1000 = 0 then "" else " " ++ esBelow1000 (n % 1000)) = true := by
      split
      · rfl
      · rw [spellStr_append, esBelow1000_spell]; rfl
    rw [h1, h2]
    rfl

theorem esWithScales_spell :
    ∀ (sc : List (String × String)) (n : Nat),
      (∀ p ∈ sc, spellStr p.1 = true ∧ spellStr p.2 = true) →
      spellStr (esWithScales sc n) = true := by
  intro sc
  induction sc with
  | nil => intro n _; exact esBelowMillion_spell n
  | cons q rest ih =>
    intro n hsc
    rcases q with ⟨sg, pl⟩
    show spellStr (
      if n / 1000000 ^ (rest.length + 1) = 0 then
        esWithScales rest (n % 1000000 ^ (rest.length + 1))
      else
        (if n / 1000000 ^ (rest.length + 1) = 1 then sg
          else esBelowMillion (n / 1000000 ^ (rest.length + 1)) ++ " " ++ pl) ++
          (if n % 1000000 ^ (rest.length + 1) = 0 then ""
            else " " ++ esWithScales rest (n % 1000000 ^ (rest.length + 1)))) = true
    have hrest : ∀ p ∈ rest, spellStr p.1 = true ∧ spellStr p.2 = true :=
      fun p hp => hsc p (List.mem_cons_of_mem _ hp)
    split
    · exact ih _ hrest
    · rw [spellStr_append]
      have hq := hsc (sg, pl) (List.mem_cons_self _ _)
      have h1 : spellStr (if n / 1000000 ^ (rest.length + 1) = 1 then sg
          else esBelowMillion (n / 1000000 ^ (rest.length + 1)) ++ " " ++ pl) = true := by
        split
        · exact hq.1
        · rw [spellStr_append, spellStr_append, esBelowMillion_spell, hq.2]
          rfl
      have h2 : spellStr (if n % 1000000 ^ (rest.length + 1) = 0 then ""
          else " " ++ esWithScales rest (n % 1000000 ^ (rest.length + 1))) = true := by
        split
        · rfl
        · rw [spellStr_append, ih _ hrest]; rfl
      rw [h1, h2]
      rfl

theorem scalesES_spell : ∀ p ∈ scalesES, spellStr p.1 = true ∧ spellStr p.2 = true := by
  decide

theorem es_cardinal_spell (n : Nat) : spellStr (es_cardinal n) = true :=
  esWithScales_spell scalesES n scalesES_spell

theorem spellChars_nodigit : spellChars.all (fun c => !isDigitChar c) = true := by
  decide

theorem spellChars_lower : spellChars.all (fun c => lowerChar c == c) = true := by
  decide

theorem spell_mem_nodigit {c : Char} (h : spellChars.contains c = true) :
    isDigitChar c = false := by
  have hm : c ∈ spellChars := by simpa using h
  have := List.all_eq_true.mp spellChars_nodigit c hm
  simpa using this

theorem spell_mem_lower {c : Char} (h : spellChars.contains c = true) :
    lowerChar c = c := by
  have hm : c ∈ spellChars := by simpa using h
  have := List.all_eq_true.mp spellChars_lower c hm
  simpa using this

theorem spellStr_chars {w : String} (h : spellStr w = true) :
    ∀ c ∈ w.data, spellChars.contains c = true := by
  intro c hc
  exact List.all_eq_true.mp h c hc

theorem getD_mem_of_lt (l : List String) (n : Nat) (d : String)
    (h : n < l.length) : l.getD n d ∈ l := by
  rw [List.getD_eq_getElem l d h]
  exact List.getElem_mem h

theorem str_append_ne_left {a : String} (b : String) (h : a.data ≠ []) :
    (a ++ b).data ≠ [] := by
  rw [String.data_append]
  intro hc
  exact h (List.append_eq_nil.mp hc).1

theorem str_append_ne_right (a : String) {b : String} (h : b.data ≠ []) :
    (a ++ b).data ≠ [] := by
  rw [String.data_append]
  intro hc
  exact h (List.append_eq_nil.mp hc).2

theorem unidades_ne : ∀ s ∈ unidades, s.data ≠ [] := by decide

theorem esBelow100_ne (n : Nat) (h : n < 100) : (esBelow100 n).data ≠ [] := by
  unfold esBelow100
  split
  · rename_i h30
    refine unidades_ne _ (getD_mem_of_lt _ _ _ ?_)
    show n < 30
    exact h30
  · rename_i h30
    have hd1 : 3 ≤ n / 10 := by omega
    have hd2 : n / 10 ≤ 9 := by omega
    split
    · set k := n / 10 with hk
      interval_cases k <;> decide
    · apply str_append_ne_left
      apply str_append_ne_right
      decide

theorem esBelow1000_ne (n : Nat) (h : n < 1000) : (esBelow1000 n).data ≠ [] := by
  unfold esBelow1000
  split
  · exact esBelow100_ne _ (Nat.mod_lt _ (by omega))
  · rename_i h100
    split
    · split
      · decide
      · rename_i h1
        have hd1 : 2 ≤ n / 100 := by omega
        have hd2 : n / 100 ≤ 9 := by omega
        set k := n / 100 with hk
        interval_cases k <;> decide
    · apply str_append_ne_left
      apply str_append_ne_right
      decide

theorem esBelowMillion_ne (n : Nat) :
    (esBelowMillion n).data ≠ [] := by
  unfold esBelowMillion
  split
  · exact esBelow1000_ne _ (Nat.mod_lt _ (by omega))
  · apply str_append_ne_left
    split
    · decide
    · apply str_append_ne_right
      decide

theorem esWithScales_ne :
    ∀ (sc : List (String × String)) (n : Nat),
      (∀ p ∈ sc, p.1.data ≠ []) → n < 1000000 ^ (sc.length + 1) →
      (esWithScales sc n).data ≠ [] := by
  intro sc
  induction sc with
  | nil =>
    intro n _ _
    exact esBelowMillion_ne n
  | cons q rest ih =>
    intro n hsc hn
    rcases q with ⟨sg, pl⟩
    show (if n / 1000000 ^ (rest.length + 1) = 0 then
        esWithScales rest (n % 1000000 ^ (rest.length + 1))
      else
        (if n / 1000000 ^ (rest.length + 1) = 1 then sg
          else esBelowMillion (n / 1000000 ^ (rest.length + 1)) ++ " " ++ pl) ++
          (if n % 1000000 ^ (rest.length + 1) = 0 then ""
            else " " ++ esWithScales rest (n % 1000000 ^ (rest.length + 1)))).data ≠ []
    have hpos : 0 < 1000000 ^ (rest.length + 1) := Nat.pos_pow_of_pos _ (by omega)
    split
    · refine ih _ (fun p hp => hsc p (List.mem_cons_of_mem _ hp)) ?_
      exact Nat.mod_lt _ hpos
    · apply str_append_ne_left
      split
      · exact hsc (sg, pl) (List.mem_cons_self _ _)
      · apply str_append_ne_left
        apply str_append_ne_right
        decide

theorem scalesES_ne : ∀ p ∈ scalesES, p.1.data ≠ [] := by decide

theorem es_cardinal_ne (n : Nat) (h : n < MAXVAL_ES) : (es_cardinal n).data ≠ [] := by
  refine esWithScales_ne scalesES n scalesES_ne ?_
  have : MAXVAL_ES = 1000000 ^ (scalesES.length + 1) := by decide
  rw [← this]
  exact h

theorem num2words_es_some {n : Nat} {w : String} (h : num2words_es n = some w) :
    n < MAXVAL_ES ∧ w = es_cardinal n := by
  unfold num2words_es at h
  split at h
  · rename_i hlt
    cases h
    exact ⟨hlt, rfl⟩
  · cases h

theorem num2words_es_none {n : Nat} (h : MAXVAL_ES ≤ n) : num2words_es n = none := by
  unfold num2words_es
  rw [if_neg]
  omega

/-! Facts about `digitsToNat` and `pyLower`. -/

theorem digitsToNat_zeros (k : Nat) (l : List Char) :
    digitsToNat (List.replicate k '0' ++ l) = digitsToNat l := by
  induction k with
  | zero => rfl
  | succ k ih =>
    rw [List.replicate_succ, List.cons_append]
    show digitsToNat ('0' :: (List.replicate k '0' ++ l)) = digitsToNat l
    unfold digitsToNat at ih ⊢
    rw [List.foldl_cons]
    simpa using ih

theorem lowerChar_fix_of_digit {c : Char} (h : isDigitChar c = true) :
    lowerChar c = c := by
  rcases lowerChar_spec c with he | he
  · exact he
  · have := (lowerPairs_nodigit _ he).1
    simp only at this
    rw [this] at h
    exact absurd h (by decide)

theorem pyLower_idem (l : List Char) : pyLower (pyLower l) = pyLower l := by
  unfold pyLower
  rw [List.map_map]
  apply List.map_congr_left
  intro c _
  exact lowerChar_idem c

theorem pyLower_fix {l : List Char} (h : ∀ c ∈ l, lowerChar c = c) :
    pyLower l = l := by
  unfold pyLower
  have : l.map lowerChar = l.map id := List.map_congr_left fun c hc => h c hc
  rw [this, List.map_id]

theorem pyLower_nodigits {l : List Char} (h : ∀ c ∈ l, isDigitChar c = false) :
    ∀ c ∈ pyLower l, isDigitChar c = false := by
  intro c hc
  rcases List.mem_map.mp hc with ⟨d, hd, rfl⟩
  rw [lowerChar_digit]
  exact h d hd

theorem pyLower_digits_id {l : List Char} (h : ∀ c ∈ l, isDigitChar c = true) :
    pyLower l = l :=
  pyLower_fix fun c hc => lowerChar_fix_of_digit (h c hc)

/-! Structural facts about the run-replacement scanner. -/

theorem rr_cases {p : Option Char} {c : Char} {rest out : List Char}
    (h : replaceRuns p (c :: rest) = some out) :
    (isDigitChar c = false ∧
      ∃ r, replaceRuns (some c) rest = some r ∧ out = c :: r) ∨
    (isDigitChar c = true ∧
      (boundaryBefore p && boundaryAfter (rest.dropWhile isDigitChar)) = true ∧
      ∃ w r, num2words_es (digitsToNat (c :: rest.takeWhile isDigitChar)) = some w ∧
        replaceRuns (some c) (rest.dropWhile isDigitChar) = some r ∧
        out = w.data ++ r) ∨
    (isDigitChar c = true ∧
      (boundaryBefore p && boundaryAfter (rest.dropWhile isDigitChar)) = false ∧
      ∃ r, replaceRuns (some c) (rest.dropWhile isDigitChar) = some r ∧
        out = (c :: rest.takeWhile isDigitChar) ++ r) := by
  rw [replaceRuns_cons] at h
  cases hd : isDigitChar c with
  | false =>
    left
    rw [hd] at h
    simp only [Bool.false_eq_true, if_false] at h
    cases hrr : replaceRuns (some c) rest with
    | none => rw [hrr] at h; cases h
    | some r =>
      rw [hrr] at h
      simp only [Option.map_some'] at h
      cases h
      exact ⟨rfl, r, rfl, rfl⟩
  | true =>
    right
    rw [hd] at h
    simp only [if_true] at h
    cases hb : (boundaryBefore p && boundaryAfter (rest.dropWhile isDigitChar)) with
    | true =>
      left
      rw [hb] at h
      simp only [if_true] at h
      cases hw : num2words_es (digitsToNat (c :: rest.takeWhile isDigitChar)) with
      | none => rw [hw] at h; cases h
      | some w =>
        rw [hw] at h
        cases hrr : replaceRuns (some c) (rest.dropWhile isDigitChar) with
        | none => rw [hrr] at h; cases h
        | some r =>
          rw [hrr] at h
          simp only [Option.map_some'] at h
          cases h
          exact ⟨rfl, rfl, w, r, rfl, rfl, rfl⟩
    | false =>
      right
      rw [hb] at h
      simp only [Bool.false_eq_true, if_false] at h
      cases hrr : replaceRuns (some c) (rest.dropWhile isDigitChar) with
      | none => rw [hrr] at h; cases h
      | some r =>
        rw [hrr] at h
        simp only [Option.map_some'] at h
        cases h
        exact ⟨rfl, rfl, r, rfl, rfl⟩

theorem rr_prevIrrel (p q : Option Char) (l : List Char)
    (h : ∀ c t, l = c :: t → isDigitChar c = false) :
    replaceRuns p l = replaceRuns q l := by
  cases l with
  | nil => rfl
  | cons c rest =>
    rw [replaceRuns_cons_nondigit p rest (h c rest rfl),
      replaceRuns_cons_nondigit q rest (h c rest rfl)]

theorem rr_walk_nodigits :
    ∀ (w : List Char) (q : Option Char) (rest : List Char),
      (∀ c ∈ w, isDigitChar c = false) →
      replaceRuns q (w ++ rest) =
        (replaceRuns (endPrev q w) rest).map (fun r => w ++ r) := by
  intro w
  induction w with
  | nil =>
    intro q rest _
    show replaceRuns q rest = (replaceRuns q rest).map (fun r => [] ++ r)
    cases replaceRuns q rest <;> simp
  | cons c w ih =>
    intro q rest hnd
    rw [List.cons_append,
      replaceRuns_cons_nondigit q _ (hnd c (List.mem_cons_self _ _)),
      ih (some c) rest (fun x hx => hnd x (List.mem_cons_of_mem _ hx))]
    show ((replaceRuns (endPrev (some c) w) rest).map (fun r => w ++ r)).map
        (fun r => c :: r) =
      (replaceRuns (endPrev (some c) w) rest).map (fun r => (c :: w) ++ r)
    cases replaceRuns (endPrev (some c) w) rest <;> simp

theorem span_digits :
    ∀ (run rest : List Char), (∀ c ∈ run, isDigitChar c = true) →
      (∀ h hs, rest = h :: hs → isDigitChar h = false) →
      (run ++ rest).takeWhile isDigitChar = run ∧
      (run ++ rest).dropWhile isDigitChar = rest := by
  intro run
  induction run with
  | nil =>
    intro rest _ hr
    cases rest with
    | nil => exact ⟨rfl, rfl⟩
    | cons h hs =>
      constructor
      · show (h :: hs).takeWhile isDigitChar = []
        rw [List.takeWhile_cons, hr h hs rfl]
        rfl
      · show (h :: hs).dropWhile isDigitChar = h :: hs
        rw [List.dropWhile_cons]
        rw [hr h hs rfl]
        rfl
  | cons a run ih =>
    intro rest hrun hr
    have ha := hrun a (List.mem_cons_self _ _)
    have hih := ih rest (fun c hc => hrun c (List.mem_cons_of_mem _ hc)) hr
    constructor
    · rw [List.cons_append, List.takeWhile_cons, ha]
      simp only [if_true, hih.1]
    · rw [List.cons_append, List.dropWhile_cons, ha]
      simp only [if_true, hih.2]

theorem rr_nodigits_id :
    ∀ (n : Nat) (l : List Char) (p : Option Char), l.length ≤ n →
      (∀ c ∈ l, isDigitChar c = false) → replaceRuns p l = some l := by
  intro n
  induction n with
  | zero =>
    intro l p hl _
    have : l = [] := List.length_eq_zero.mp (Nat.le_zero.mp hl)
    subst this
    rfl
  | succ n ih =>
    intro l p hl hnd
    cases l with
    | nil => rfl
    | cons c rest =>
      rw [replaceRuns_cons_nondigit p rest (hnd c (List.mem_cons_self _ _)),
        ih rest (some c) (by simpa using hl)
          (fun x hx => hnd x (List.mem_cons_of_mem _ hx))]
      rfl

theorem rr_head {p : Option Char} {l out : List Char}
    (hout : replaceRuns p l = some out) :
    ∀ h hs, out = h :: hs →
      (∃ t, l = h :: t) ∨
      (spellChars.contains h = true ∧ ∃ d t, l = d :: t ∧ isDigitChar d = true) := by
  intro h hs hcons
  cases l with
  | nil =>
    rw [replaceRuns_nil] at hout
    cases hout
    cases hcons
  | cons c rest =>
    rcases rr_cases hout with ⟨hd, r, hr, rfl⟩ | ⟨hd, hb, w, r, hw, hr, rfl⟩ |
      ⟨hd, hb, r, hr, rfl⟩
    · cases hcons
      exact Or.inl ⟨rest, rfl⟩
    · right
      rcases num2words_es_some hw with ⟨hlt, rfl⟩
      have hne := es_cardinal_ne _ hlt
      cases hwd : (es_cardinal (digitsToNat (c :: rest.takeWhile isDigitChar))).data with
      | nil => exact absurd hwd hne
      | cons x xs =>
        rw [hwd, List.cons_append] at hcons
        have hx : x = h := by
          have := List.head_eq_of_cons_eq hcons
          exact this
        subst hx
        refine ⟨?_, c, rest, rfl, hd⟩
        apply spellStr_chars (es_cardinal_spell _)
        rw [hwd]
        exact List.mem_cons_self _ _
    · rw [List.cons_append] at hcons
      cases hcons
      exact Or.inl ⟨rest, rfl⟩

theorem rr_mem :
    ∀ (n : Nat) (l : List Char) (p : Option Char) (out : List Char),
      l.length ≤ n → replaceRuns p l = some out →
      ∀ c ∈ out, c ∈ l ∨ spellChars.contains c = true := by
  intro n
  induction n with
  | zero =>
    intro l p out hl hout c hc
    have : l = [] := List.length_eq_zero.mp (Nat.le_zero.mp hl)
    subst this
    rw [replaceRuns_nil] at hout
    cases hout
    simp at hc
  | succ n ih =>
    intro l p out hl hout c hc
    cases l with
    | nil =>
      rw [replaceRuns_nil] at hout
      cases hout
      simp at hc
    | cons a rest =>
      have hrl : rest.length ≤ n := by simpa using hl
      have hdl : (rest.dropWhile isDigitChar).length ≤ n :=
        Nat.le_trans (dropWhile_length_le _ _) hrl
      rcases rr_cases hout with ⟨hd, r, hr, rfl⟩ | ⟨hd, hb, w, r, hw, hr, rfl⟩ |
        ⟨hd, hb, r, hr, rfl⟩
      · rcases List.mem_cons.mp hc with rfl | hc
        · exact Or.inl (List.mem_cons_self _ _)
        · rcases ih rest (some a) r hrl hr c hc with h1 | h1
          · exact Or.inl (List.mem_cons_of_mem _ h1)
          · exact Or.inr h1
      · rcases List.mem_append.mp hc with hcw | hcr
        · right
          rcases num2words_es_some hw with ⟨_, rfl⟩
          exact spellStr_chars (es_cardinal_spell _) c hcw
        · rcases ih _ (some a) r hdl hr c hcr with h1 | h1
          · exact Or.inl (List.mem_cons_of_mem _ (mem_of_mem_dropWhile _ _ _ h1))
          · exact Or.inr h1
      · rcases List.mem_append.mp hc with hcrun | hcr
        · rcases List.mem_cons.mp hcrun with rfl | hct
          · exact Or.inl (List.mem_cons_self _ _)
          · exact Or.inl (List.mem_cons_of_mem _ (mem_takeWhile_split _ _ _ hct).2)
        · rcases ih _ (some a) r hdl hr c hcr with h1 | h1
          · exact Or.inl (List.mem_cons_of_mem _ (mem_of_mem_dropWhile _ _ _ h1))
          · exact Or.inr h1

theorem mem_of_getLast?_eq {l : List Char} {a : Char} (h : l.getLast? = some a) :
    a ∈ l := by
  have hm : a ∈ l.getLast? := by rw [h]; rfl
  rcases List.mem_getLast?_eq_getLast hm with ⟨hne, rfl⟩
  exact List.getLast_mem hne

theorem dropWhile_head_adj :
    ∀ (l : List Char) (d : Char), isDigitChar d = true → noBadAdj (d :: l) = true →
      ∀ h hs, l.dropWhile isDigitChar = h :: hs → isAsciiLetter h = false := by
  intro l
  induction l with
  | nil =>
    intro d _ _ h hs hh
    simp at hh
  | cons a l ih =>
    intro d hd hadj h hs hh
    rw [List.dropWhile_cons] at hh
    split at hh
    · rename_i hpa
      exact ih a hpa (noBadAdj_tail hadj) h hs hh
    · rename_i hpa
      cases hh
      have hp := noBadAdj_pair hadj
      simp only [adjOK, Bool.and_eq_true, Bool.not_eq_true'] at hp
      rcases hp with ⟨_, hp2⟩
      rw [hd] at hp2
      simpa using hp2

theorem noBadAdj_dropWhile {l : List Char} (p : Char → Bool)
    (h : noBadAdj l = true) : noBadAdj (l.dropWhile p) = true := by
  refine noBadAdj_append_right (l.takeWhile p) _ ?_
  rw [List.takeWhile_append_dropWhile]
  exact h

theorem rr_head_eq {p : Option Char} {l out : List Char}
    (hl : ∀ h hs, l = h :: hs → isDigitChar h = false)
    (hout : replaceRuns p l = some out) :
    out.head? = l.head? := by
  cases l with
  | nil =>
    rw [replaceRuns_nil] at hout
    cases hout
    rfl
  | cons c rest =>
    rcases rr_cases hout with ⟨hd, r, hr, rfl⟩ | ⟨hd, _, _, _, _, _, rfl⟩ |
      ⟨hd, _, _, _, rfl⟩
    · rfl
    · rw [hl c rest rfl] at hd; cases hd
    · rw [hl c rest rfl] at hd; cases hd

theorem boundaryAfter_congr {a b : List Char} (h : a.head? = b.head?) :
    boundaryAfter a = boundaryAfter b := by
  cases a with
  | nil =>
    cases b with
    | nil => rfl
    | cons y ys => simp at h
  | cons x xs =>
    cases b with
    | nil => simp at h
    | cons y ys =>
      simp only [List.head?_cons, Option.some.injEq] at h
      subst h
      rfl

theorem rr_adj :
    ∀ (n : Nat) (l : List Char) (p : Option Char) (out : List Char),
      l.length ≤ n → replaceRuns p l = some out → noBadAdj l = true →
      noBadAdj out = true := by
  intro n
  induction n with
  | zero =>
    intro l p out hl hout _
    have : l = [] := List.length_eq_zero.mp (Nat.le_zero.mp hl)
    subst this
    rw [replaceRuns_nil] at hout
    cases hout
    rfl
  | succ n ih =>
    intro l p out hl hout hadj
    cases l with
    | nil =>
      rw [replaceRuns_nil] at hout
      cases hout
      rfl
    | cons a rest =>
      have hrl : rest.length ≤ n := by simpa using hl
      have hdl : (rest.dropWhile isDigitChar).length ≤ n :=
        Nat.le_trans (dropWhile_length_le _ _) hrl
      rcases rr_cases hout with ⟨hd, r, hr, rfl⟩ | ⟨hd, hb, w, r, hw, hr, rfl⟩ |
        ⟨hd, hb, r, hr, rfl⟩
      · have hradj : noBadAdj r = true := ih rest (some a) r hrl hr (noBadAdj_tail hadj)
        cases hrc : r with
        | nil => rfl
        | cons h hs =>
          rw [noBadAdj_cons_cons, Bool.and_eq_true]
          refine ⟨?_, hrc ▸ hradj⟩
          rcases rr_head hr h hs hrc with ⟨t, hrt⟩ | ⟨hsp, _, _, _, _⟩
          · subst hrt
            exact noBadAdj_pair hadj
          · simp [adjOK, hd, spell_mem_nodigit hsp]
      · rcases num2words_es_some hw with ⟨hlt, rfl⟩
        have hwnd : ∀ c ∈ (es_cardinal (digitsToNat (a :: rest.takeWhile isDigitChar))).data,
            isDigitChar c = false :=
          fun c hc => spell_mem_nodigit (spellStr_chars (es_cardinal_spell _) c hc)
        have hradj : noBadAdj r = true :=
          ih _ (some a) r hdl hr (noBadAdj_dropWhile _ (noBadAdj_tail hadj))
        refine noBadAdj_append _ _ (noBadAdj_of_noDigits _ hwnd) hradj ?_
        intro x y hx hy
        have hxnd : isDigitChar x = false := hwnd x (mem_of_getLast?_eq hx)
        have hynd : isDigitChar y = false := by
          cases hrc : r with
          | nil => rw [hrc] at hy; cases hy
          | cons h hs =>
            rw [hrc] at hy
            simp only [List.head?_cons, Option.some.injEq] at hy
            subst hy
            rcases rr_head hr h hs hrc with ⟨t, hrt⟩ | ⟨hsp, _, _, _, _⟩
            · exact dropWhile_head_false _ rest h t hrt
            · exact spell_mem_nodigit hsp
        simp [adjOK, hxnd, hynd]
      · have htw : ∀ c ∈ rest.takeWhile isDigitChar, isDigitChar c = true :=
          fun c hc => (mem_takeWhile_split _ _ _ hc).1
        have hrun : ∀ c ∈ a :: rest.takeWhile isDigitChar, isDigitChar c = true := by
          intro c hc
          rcases List.mem_cons.mp hc with rfl | hc
          · exact hd
          · exact htw c hc
        have hradj : noBadAdj r = true :=
          ih _ (some a) r hdl hr (noBadAdj_dropWhile _ (noBadAdj_tail hadj))
        refine noBadAdj_append _ _ (noBadAdj_of_digits _ hrun) hradj ?_
        intro x y hx hy
        have hxd : isDigitChar x = true := hrun x (mem_of_getLast?_eq hx)
        cases hrc : r with
        | nil => rw [hrc] at hy; cases hy
        | cons h hs =>
          rw [hrc] at hy
          simp only [List.head?_cons, Option.some.injEq] at hy
          subst hy
          rcases rr_head hr h hs hrc with ⟨t, hrt⟩ | ⟨hsp, d, t, hdt, hdd⟩
          · have hynd : isDigitChar h = false := dropWhile_head_false _ rest h t hrt
            have hynl : isAsciiLetter h = false := dropWhile_head_adj rest a hd hadj h t hrt
            simp [adjOK, hynd, hynl, digit_not_asciiLetter hxd]
          · rw [dropWhile_head_false _ rest d t hdt] at hdd
            cases hdd

theorem rr_stable :
    ∀ (n : Nat) (l : List Char) (p : Option Char) (out : List Char),
      l.length ≤ n → replaceRuns p l = some out →
      ∀ q, boundaryBefore q = boundaryBefore p → replaceRuns q out = some out := by
  intro n
  induction n with
  | zero =>
    intro l p out hl hout q _
    have : l = [] := List.length_eq_zero.mp (Nat.le_zero.mp hl)
    subst this
    rw [replaceRuns_nil] at hout
    cases hout
    rfl
  | succ n ih =>
    intro l p out hl hout q hq
    cases l with
    | nil =>
      rw [replaceRuns_nil] at hout
      cases hout
      rfl
    | cons a rest =>
      have hrl : rest.length ≤ n := by simpa using hl
      have hdl : (rest.dropWhile isDigitChar).length ≤ n :=
        Nat.le_trans (dropWhile_length_le _ _) hrl
      rcases rr_cases hout with ⟨hd, r, hr, rfl⟩ | ⟨hd, hb, w, r, hw, hr, rfl⟩ |
        ⟨hd, hb, r, hr, rfl⟩
      · rw [replaceRuns_cons_nondigit q r hd,
          ih rest (some a) r hrl hr (some a) rfl]
        rfl
      · rcases num2words_es_some hw with ⟨hlt, hwe⟩
        subst hwe
        have hwnd : ∀ c ∈ (es_cardinal (digitsToNat (a :: rest.takeWhile isDigitChar))).data,
            isDigitChar c = false :=
          fun c hc => spell_mem_nodigit (spellStr_chars (es_cardinal_spell _) c hc)
        rw [rr_walk_nodigits _ q r hwnd]
        have hrhd : ∀ c t, r = c :: t → isDigitChar c = false := by
          intro c t hct
          rcases rr_head hr c t hct with ⟨t', hrt⟩ | ⟨hsp, _, _, _, _⟩
          · exact dropWhile_head_false _ rest c t' hrt
          · exact spell_mem_nodigit hsp
        rw [rr_prevIrrel
          (endPrev q (es_cardinal (digitsToNat (a :: rest.takeWhile isDigitChar))).data)
          (some a) r hrhd,
          ih _ (some a) r hdl hr (some a) rfl]
        rfl
      · have htw : ∀ c ∈ rest.takeWhile isDigitChar, isDigitChar c = true :=
          fun c hc => (mem_takeWhile_split _ _ _ hc).1
        have hrhd : ∀ h hs, r = h :: hs → isDigitChar h = false := by
          intro h hs hct
          rcases rr_head hr h hs hct with ⟨t', hrt⟩ | ⟨hsp, _, _, _, _⟩
          · exact dropWhile_head_false _ rest h t' hrt
          · exact spell_mem_nodigit hsp
        have hspan := span_digits (rest.takeWhile isDigitChar) r htw hrhd
        have hba : boundaryAfter r = boundaryAfter (rest.dropWhile isDigitChar) := by
          apply boundaryAfter_congr
          exact rr_head_eq
            (fun h hs hh => dropWhile_head_false _ rest h hs hh) hr
        have hb2 : (boundaryBefore q &&
            boundaryAfter ((rest.takeWhile isDigitChar ++ r).dropWhile isDigitChar)) = false := by
          rw [hspan.2, hq, hba]
          exact hb
        rw [List.cons_append,
          replaceRuns_cons_digit_miss q (rest.takeWhile isDigitChar ++ r) hd hb2,
          hspan.1, hspan.2,
          ih _ (some a) r hdl hr (some a) rfl]
        simp

theorem rr_noDigits :
    ∀ (n : Nat) (l : List Char) (p : Option Char) (out : List Char),
      l.length ≤ n → replaceRuns p l = some out →
      noBadAdj l = true →
      (∀ c ∈ l, isWordChar c = true → isAsciiLetter c = true ∨ isDigitChar c = true) →
      (∀ c t, l = c :: t → isDigitChar c = true → boundaryBefore p = true) →
      noDigits out = true := by
  intro n
  induction n with
  | zero =>
    intro l p out hl hout _ _ _
    have : l = [] := List.length_eq_zero.mp (Nat.le_zero.mp hl)
    subst this
    rw [replaceRuns_nil] at hout
    cases hout
    rfl
  | succ n ih =>
    intro l p out hl hout hadj hres hbb
    cases l with
    | nil =>
      rw [replaceRuns_nil] at hout
      cases hout
      rfl
    | cons a rest =>
      have hrl : rest.length ≤ n := by simpa using hl
      have hdl : (rest.dropWhile isDigitChar).length ≤ n :=
        Nat.le_trans (dropWhile_length_le _ _) hrl
      rcases rr_cases hout with ⟨hd, r, hr, rfl⟩ | ⟨hd, hb, w, r, hw, hr, rfl⟩ |
        ⟨hd, hb, r, hr, rfl⟩
      · have hrr : noDigits r = true := by
          refine ih rest (some a) r hrl hr (noBadAdj_tail hadj)
            (fun c hc => hres c (List.mem_cons_of_mem _ hc)) ?_
          intro c t hct hdc
          subst hct
          show (!isWordChar a) = true
          cases hwa : isWordChar a with
          | false => rfl
          | true =>
            rcases hres a (List.mem_cons_self _ _) hwa with hla | hda
            · have hp := noBadAdj_pair hadj
              simp only [adjOK, Bool.and_eq_true, Bool.not_eq_true'] at hp
              rw [hla, hdc] at hp
              simpa using hp.1
            · rw [hda] at hd
              cases hd
        show ((!isDigitChar a) && noDigits r) = true
        rw [hd, hrr]
        rfl
      · rcases num2words_es_some hw with ⟨hlt, hwe⟩
        subst hwe
        have hwnd : noDigits (es_cardinal (digitsToNat (a :: rest.takeWhile isDigitChar))).data = true := by
          refine List.all_eq_true.mpr ?_
          intro c hc
          have := spell_mem_nodigit (spellStr_chars (es_cardinal_spell _) c hc)
          simp [this]
        have hrr : noDigits r = true := by
          refine ih _ (some a) r hdl hr (noBadAdj_dropWhile _ (noBadAdj_tail hadj)) ?_ ?_
          · intro c hc
            exact hres c (List.mem_cons_of_mem _ (mem_of_mem_dropWhile _ _ _ hc))
          · intro c t hct hdc
            rw [dropWhile_head_false _ rest c t hct] at hdc
            cases hdc
        show noDigits (_ ++ r) = true
        unfold noDigits at hwnd hrr ⊢
        rw [List.all_append, hwnd, hrr]
        rfl
      · exfalso
        have hbp : boundaryBefore p = true := hbb a rest rfl hd
        have hba : boundaryAfter (rest.dropWhile isDigitChar) = true := by
          cases hdw : rest.dropWhile isDigitChar with
          | nil => rfl
          | cons h hs =>
            show (!isWordChar h) = true
            cases hwh : isWordChar h with
            | false => rfl
            | true =>
              exfalso
              have hmem : h ∈ rest := mem_of_mem_dropWhile _ rest h (by rw [hdw]; exact List.mem_cons_self _ _)
              rcases hres h (List.mem_cons_of_mem _ hmem) hwh with hlh | hdh
              · rw [dropWhile_head_adj rest a hd hadj h hs hdw] at hlh
                cases hlh
              · rw [dropWhile_head_false _ rest h hs hdw] at hdh
                cases hdh
        rw [hbp, hba] at hb
        cases hb

/-! Normalizer-level consequences. -/

theorem normalizeText_nodigits (s : List Char) (h : ∀ c ∈ s, isDigitChar c = false) :
    normalizeText s = some (pyLower s) := by
  unfold normalizeText traducir_numero_a_texto
  have hy : ∀ c ∈ pyLower s, isDigitChar c = false := pyLower_nodigits h
  rw [sepLD_id _ (noLDAdj_of_nodigits _ hy), sepDL_id _ (noDLAdj_of_nodigits _ hy)]
  exact rr_nodigits_id (pyLower s).length _ none (Nat.le_refl _) hy

theorem dropWhile_all_digits {l : List Char} (h : ∀ c ∈ l, isDigitChar c = true) :
    l.takeWhile isDigitChar = l ∧ l.dropWhile isDigitChar = [] := by
  have hs := span_digits l [] h (by intro x xs hx; cases hx)
  simpa using hs

theorem traducir_digit_run (l : List Char) (hne : l ≠ [])
    (h : ∀ c ∈ l, isDigitChar c = true) :
    traducir_numero_a_texto l =
      (num2words_es (digitsToNat l)).map (fun w => w.data) := by
  unfold traducir_numero_a_texto
  rw [sepLD_id _ (noLDAdj_of_digits _ h), sepDL_id _ (noDLAdj_of_digits _ h)]
  cases l with
  | nil => exact absurd rfl hne
  | cons c rest =>
    have hrest : ∀ x ∈ rest, isDigitChar x = true :=
      fun x hx => h x (List.mem_cons_of_mem _ hx)
    have hspan := dropWhile_all_digits hrest
    rw [replaceRuns_cons_digit_hit none rest (h c (List.mem_cons_self _ _)) rfl
      (by rw [hspan.2]; rfl)]
    rw [hspan.1, hspan.2]
    cases num2words_es (digitsToNat (c :: rest)) with
    | none => rfl
    | some w =>
      show (replaceRuns (some c) []).map _ = _
      rw [replaceRuns_nil]
      simp

theorem normalizeText_digit_run (l : List Char) (hne : l ≠ [])
    (h : ∀ c ∈ l, isDigitChar c = true) :
    normalizeText l = (num2words_es (digitsToNat l)).map (fun w => w.data) := by
  unfold normalizeText
  rw [pyLower_digits_id h]
  exact traducir_digit_run l hne h

theorem z_restrict (s : List Char)
    (h : ∀ c ∈ s, isWordChar c = true → isAsciiLetter c = true ∨ isDigitChar c = true) :
    ∀ c ∈ sepDL (sepLD (pyLower s)),
      isWordChar c = true → isAsciiLetter c = true ∨ isDigitChar c = true := by
  intro c hc hw
  rcases mem_sepDL _ c hc with hc1 | rfl
  · rcases mem_sepLD _ c hc1 with hc2 | rfl
    · rcases List.mem_map.mp hc2 with ⟨d, hd, rfl⟩
      exact lowerChar_restrict d (h d hd) hw
    · rw [show isWordChar ' ' = false from by decide] at hw
      cases hw
  · rw [show isWordChar ' ' = false from by decide] at hw
    cases hw

theorem normalizeText_out_noDigits (s out : List Char)
    (h : ∀ c ∈ s, isWordChar c = true → isAsciiLetter c = true ∨ isDigitChar c = true)
    (hout : normalizeText s = some out) : noDigits out = true := by
  unfold normalizeText traducir_numero_a_texto at hout
  exact rr_noDigits (sepDL (sepLD (pyLower s))).length _ none out (Nat.le_refl _)
    hout (sep_noBadAdj _) (z_restrict s h) (fun c t _ _ => rfl)

theorem normalizeText_stable (x out : List Char)
    (hout : normalizeText x = some out) : normalizeText out = some out := by
  unfold normalizeText traducir_numero_a_texto at hout
  have hadjz : noBadAdj (sepDL (sepLD (pyLower x))) = true := sep_noBadAdj _
  have hadjout : noBadAdj out = true :=
    rr_adj (sepDL (sepLD (pyLower x))).length _ none out (Nat.le_refl _) hout hadjz
  have hlower : pyLower out = out := by
    apply pyLower_fix
    intro c hc
    rcases rr_mem (sepDL (sepLD (pyLower x))).length _ none out (Nat.le_refl _)
      hout c hc with hcz | hcs
    · rcases mem_sepDL _ c hcz with hc1 | rfl
      · rcases mem_sepLD _ c hc1 with hc2 | rfl
        · rcases List.mem_map.mp hc2 with ⟨d, _, rfl⟩
          exact lowerChar_idem d
        · decide
      · decide
    · exact spell_mem_lower hcs
  unfold normalizeText traducir_numero_a_texto
  rw [hlower, sepLD_id _ (noBadAdj_noLD _ hadjout), sepDL_id _ (noBadAdj_noDL _ hadjout)]
  exact rr_stable (sepDL (sepLD (pyLower x))).length _ none out (Nat.le_refl _)
    hout none rfl

/-! Claim theorems. -/

/-- C1, counterexample to the claim as stated: the input made of an
underscore followed by the digit five is returned unchanged by the
normalizer, so its output does contain a digit character.  The underscore is
a word character for the Python `\b` boundary, so the run `5` is never
matched by `\b\d+\b`, and neither separation regex fires because `_` is not
an ASCII letter. -/
theorem C1_counterexample :
    normalizeText "_5".data = some ['_', '5'] ∧ isDigitChar '5' = true := by
  constructor
  · decide
  · decide

/-- C1 (amended): for every input string whose word characters are all
ASCII letters or digits (no underscore and no accented letter), if the
normalizer returns at all, its output contains no digit character: every
maximal digit run is fully replaced by its spelled-out Spanish word form. -/
theorem C1_no_digit_output (s out : List Char)
    (h : ∀ c ∈ s, isWordChar c = true → isAsciiLetter c = true ∨ isDigitChar c = true)
    (hout : normalizeText s = some out) : noDigits out = true :=
  normalizeText_out_noDigits s out h hout

/-- C1 witness: the spec example sentence normalizes with no digits left. -/
theorem C1_no_digit_output_witness : noDigits "tengo cinco gatos".data = true :=
  C1_no_digit_output "Tengo 5 gatos".data "tengo cinco gatos".data (by decide)
    (by decide)

/-- C2, counterexample to the claim as stated: the letter `é` immediately
followed by the digit five is left adjacent by the boundary-insertion step,
because the regexes use the ASCII class `[A-Za-z]`, which does not match
accented letters. -/
theorem C2_counterexample :
    sepDL (sepLD "é5".data) = "é5".data ∧ isLetterChar 'é' = true ∧
      isDigitChar '5' = true := by
  refine ⟨?_, ?_, ?_⟩ <;> decide

/-- C2 (amended): the boundary-insertion step inserts a space between any
ASCII letter and an adjacent digit, so that after this step no digit is
adjacent to any ASCII letter; a digit may remain adjacent to a non-ASCII
letter such as `é`. -/
theorem C2_sep_ascii (s : List Char) : noBadAdj (sepDL (sepLD s)) = true :=
  sep_noBadAdj s

/-- C3, counterexample to the claim as stated: a run of one hundred and
twenty nines exceeds the conversion range of the modelled `num2words`, and
the normalizer propagates the failure (returns `none`, modelling the
raised exception) instead of leaving the run unchanged in an output
string. -/
theorem C3_counterexample : normalizeText (List.replicate 120 '9') = none := by
  decide

/-- C3 (amended): for every nonempty digit run whose value the
number-to-words conversion cannot render, the normalizer propagates the
conversion error instead of returning the run unchanged; the failure aborts
the request (surfacing as the endpoint 500 handler). -/
theorem C3_overflow_propagates (l : List Char) (hne : l ≠ [])
    (h : ∀ c ∈ l, isDigitChar c = true) (hv : MAXVAL_ES ≤ digitsToNat l) :
    normalizeText l = none := by
  rw [normalizeText_digit_run l hne h, num2words_es_none hv]
  rfl

/-- C3 witness: a run of sixty-seven nines is past the modelled overflow
threshold and makes the normalizer fail. -/
theorem C3_overflow_propagates_witness :
    normalizeText (List.replicate 67 '9') = none :=
  C3_overflow_propagates (List.replicate 67 '9') (by decide) (by decide) (by decide)

/-- C4: for every input string containing no digit characters, the
normalizer returns exactly the lower-cased input; all non-digit characters
pass through unchanged apart from case. -/
theorem C4_nodigit_lowercase (s : List Char)
    (h : ∀ c ∈ s, isDigitChar c = false) :
    normalizeText s = some (pyLower s) :=
  normalizeText_nodigits s h

/-- C4 witness at a concrete digit-free input. -/
theorem C4_nodigit_lowercase_witness :
    normalizeText "Hola, Mundo!".data = some (pyLower "Hola, Mundo!".data) :=
  C4_nodigit_lowercase "Hola, Mundo!".data (by decide)

/-- C5: normalizing the input `Sala123B` yields exactly
`sala ciento veintitrés b`: the digits 123 are split off from the adjacent
letters, replaced by their Spanish cardinal spelling, and the letters are
lower-cased. -/
theorem C5_sala123b :
    normalizeText "Sala123B".data = some "sala ciento veintitrés b".data := by
  decide

/-- C6, counterexample to the claim as stated: the maximal digit run `007`
in the input `_007` is not replaced at all (the underscore is a word
character, so the `\b` boundary fails), hence not every maximal digit run
is parsed and spelled. -/
theorem C6_counterexample :
    normalizeText "_007".data = some "_007".data ∧ isDigitChar '0' = true := by
  constructor
  · decide
  · decide

/-- C6 (amended): every maximal digit run that stands alone (here: the
whole input), including runs with leading zeros, is parsed as a
non-negative base-10 integer, ignoring the leading zeros, and is replaced
by that value's Spanish cardinal spelling, provided the value is within the
conversion range. -/
theorem C6_leading_zeros (k : Nat) (run : List Char) (hne : run ≠ [])
    (h : ∀ c ∈ run, isDigitChar c = true) (hv : digitsToNat run < MAXVAL_ES) :
    normalizeText (List.replicate k '0' ++ run) =
      some (es_cardinal (digitsToNat run)).data := by
  have hall : ∀ c ∈ List.replicate k '0' ++ run, isDigitChar c = true := by
    intro c hc
    rcases List.mem_append.mp hc with hc | hc
    · rw [List.eq_of_mem_replicate hc]
      decide
    · exact h c hc
  have hne2 : List.replicate k '0' ++ run ≠ [] := by
    intro hh
    exact hne (List.append_eq_nil.mp hh).2
  rw [normalizeText_digit_run _ hne2 hall, digitsToNat_zeros]
  unfold num2words_es
  rw [if_pos hv]
  rfl

/-- C6 witness: `007` is spelled as the integer seven. -/
theorem C6_leading_zeros_witness :
    normalizeText (List.replicate 2 '0' ++ "7".data) = some "siete".data := by
  rw [C6_leading_zeros 2 "7".data (by decide) (by decide) (by decide)]
  decide

/-- C7: for every input string without digits, normalization is
idempotent. -/
theorem C7_idem_nodigits (x : List Char) (h : ∀ c ∈ x, isDigitChar c = false) :
    (normalizeText x).bind normalizeText = normalizeText x := by
  rw [normalizeText_nodigits x h]
  show normalizeText (pyLower x) = some (pyLower x)
  rw [normalizeText_nodigits _ (pyLower_nodigits h), pyLower_idem]

/-- C7 witness at a concrete digit-free input with an accented letter. -/
theorem C7_idem_nodigits_witness :
    (normalizeText "Adiós".data).bind normalizeText = normalizeText "Adiós".data :=
  C7_idem_nodigits "Adiós".data (by decide)

/-- C8: the normalizer is a pure deterministic function: equal input
strings produce equal outputs, and in this embedding it reads or writes no
state at all. -/
theorem C8_deterministic (s t : List Char) (h : s = t) :
    normalizeText s = normalizeText t := by
  rw [h]

/-- C8 witness: two invocations on the same concrete input agree. -/
theorem C8_deterministic_witness :
    normalizeText "hola".data = normalizeText "hola".data :=
  C8_deterministic "hola".data "hola".data rfl

/-- C9: every failure of the `POST /generate-audio/` endpoint is reported
with HTTP status 500, including the input-validation failures (a
reference-audio filename not ending in `.wav`, or an empty `ref_text` or
`gen_text`): the 400 `HTTPException`s raised inside the `try` block are
caught by the catch-all handler and re-raised as 500. -/
theorem C9_all_errors_500 (r : ReqData) (ext : Except String Unit) :
    (∀ n d, generate_audio r ext = Outcome.httpError n d → n = 500) ∧
    (wavOk r.filename = false →
      generate_audio_try r ext =
        Except.error (PyExc.http 400 "El archivo de audio debe estar en formato WAV.") ∧
      generate_audio r ext =
        Outcome.httpError 500
          "Error al generar el audio: 400: El archivo de audio debe estar en formato WAV.") ∧
    (wavOk r.filename = true → (r.ref_text.isEmpty || r.gen_text.isEmpty) = true →
      generate_audio_try r ext =
        Except.error (PyExc.http 400 "Ambos textos (de referencia y generación) son obligatorios.") ∧
      generate_audio r ext =
        Outcome.httpError 500
          "Error al generar el audio: 400: Ambos textos (de referencia y generación) son obligatorios.") := by
  refine ⟨?_, ?_, ?_⟩
  · intro n d h
    unfold generate_audio at h
    cases hTry : generate_audio_try r ext with
    | ok u => rw [hTry] at h; cases h
    | error e => rw [hTry] at h; cases h; rfl
  · intro hw
    have hTry : generate_audio_try r ext =
        Except.error (PyExc.http 400 "El archivo de audio debe estar en formato WAV.") := by
      unfold generate_audio_try
      rw [hw]
      rfl
    refine ⟨hTry, ?_⟩
    unfold generate_audio
    rw [hTry]
    decide
  · intro hw htext
    have hTry : generate_audio_try r ext =
        Except.error (PyExc.http 400 "Ambos textos (de referencia y generación) son obligatorios.") := by
      unfold generate_audio_try
      rw [hw, htext]
      rfl
    refine ⟨hTry, ?_⟩
    unfold generate_audio
    rw [hTry]
    decide

/-- C9 witness: a request with a non-wav filename is answered with a 500
carrying the re-wrapped 400 validation message. -/
theorem C9_all_errors_500_witness :
    generate_audio ⟨"voice.mp3".data, "hola".data, "mundo".data⟩ (Except.ok ()) =
      Outcome.httpError 500
        "Error al generar el audio: 400: El archivo de audio debe estar en formato WAV." :=
  ((C9_all_errors_500 ⟨"voice.mp3".data, "hola".data, "mundo".data⟩
    (Except.ok ())).2.1 (by decide)).2

/-- C10: normalization is idempotent on every input string: when the first
pass returns a string, a second pass returns it unchanged, and when the
first pass fails the composition fails the same way. -/
theorem C10_idempotent (x : List Char) :
    (normalizeText x).bind normalizeText = normalizeText x := by
  cases hres : normalizeText x with
  | none => rfl
  | some out =>
    show normalizeText out = some out
    exact normalizeText_stable x out hres
